import Mathlib

set_option maxHeartbeats 1000000

namespace SelectiveSpeaker

/-- Diarized STT word, as consumed by `map_enrollment_anchored` and the webhook
pipeline: `{"start": int_ms, "end": int_ms, "speaker": str, "confidence": float, "text": str}`.
Times are integer milliseconds; a missing confidence is modelled by `none`
(the code reads it with `w.get("confidence", 1.0)`). -/
structure Word where
  start : ℤ
  end_ : ℤ
  speaker : String
  confidence : Option ℚ
  text : String
  deriving DecidableEq, Repr

instance : Inhabited Word := ⟨⟨0, 0, "", none, ""⟩⟩

/-- Kept segment as produced by both inlined segment builders
(`diarization_mapper.py` step 4 and `webhooks.py`). -/
structure Segment where
  start_ms : ℤ
  end_ms : ℤ
  text : String
  avg_conf : ℚ
  deriving DecidableEq, Repr

/-- Start time of a word run: `seg[0]["start"]` (0 on the empty run, which never occurs). -/
def firstStart : List Word → ℤ
  | [] => 0
  | w :: _ => w.start

/-- End time of a word run: `seg[-1]["end"]` (0 on the empty run, which never occurs). -/
def lastEnd : List Word → ℤ
  | [] => 0
  | [w] => w.end_
  | _ :: w :: ws => lastEnd (w :: ws)

/-- Grouping loop shared by `map_enrollment_anchored` (step 3) and the webhook:
scan words in order, start a new run whenever the next word's start exceeds the
previous word's end by more than `gap` (`SEGMENT_GAP_MS`).  Both loops compare
each word only against the immediately preceding word's end, so the grouping is
a split of the list at exactly the adjacent pairs with `start - prev_end > gap`. -/
def groupWords (gap : ℤ) : List Word → List (List Word)
  | [] => []
  | [w] => [[w]]
  | w :: w' :: ws =>
    match groupWords gap (w' :: ws) with
    | [] => [[w]]
    | g :: gs => if w'.start - w.end_ ≤ gap then (w :: g) :: gs else [w] :: g :: gs

/-- Segment text: `" ".join(w["text"] for w in seg)`. -/
def segText (g : List Word) : String :=
  String.intercalate " " (g.map Word.text)

/-- Segment start re-based on the region start (`seg[0]["start"] - chunk_start`;
the webhook builder uses region start 0). -/
def segStart (rs : ℤ) (g : List Word) : ℤ := firstStart g - rs

/-- Segment end re-based on the region start (`seg[-1]["end"] - chunk_start`). -/
def segEnd (rs : ℤ) (g : List Word) : ℤ := lastEnd g - rs

/-- Average confidence of a run:
`sum(w.get("confidence", 1.0) for w in seg) / len(seg)`. -/
def avgConf (g : List Word) : ℚ :=
  (g.map (fun w => w.confidence.getD 1)).sum / (g.length : ℚ)

/-- Segment record built from a kept run. -/
def segOf (rs : ℤ) (g : List Word) : Segment :=
  ⟨segStart rs g, segEnd rs g, segText g, avgConf g⟩

/-- Keep condition on a run: `dur >= MIN_MS and len(text) >= MIN_CHARS`. -/
def keepSeg (minMs : ℤ) (minChars : ℕ) (rs : ℤ) (g : List Word) : Bool :=
  decide (minMs ≤ segEnd rs g - segStart rs g) && decide (minChars ≤ (segText g).length)

/-- Filtering loop over grouped runs (step 4 of the mapper and the webhook's
`kept_segments` loop): emit a segment for each run passing the keep condition. -/
def keptSegments (minMs : ℤ) (minChars : ℕ) (rs : ℤ) : List (List Word) → List Segment
  | [] => []
  | g :: gs =>
    if keepSeg minMs minChars rs g then segOf rs g :: keptSegments minMs minChars rs gs
    else keptSegments minMs minChars rs gs

/-- Webhook's inlined segment builder (`webhooks.py`): same grouping and filter,
with timestamps kept absolute (region start 0). -/
def webhookSegments (gap minMs : ℤ) (minChars : ℕ) (ws : List Word) : List Segment :=
  keptSegments minMs minChars 0 (groupWords gap ws)

/-- Upsert into an association list, modelling `defaultdict(int)` updated at a
key: the first entry with the given key is bumped, a fresh key is appended at
the end (Python dict preserves insertion order). -/
def addTime : List (String × ℤ) → String → ℤ → List (String × ℤ)
  | [], lab, t => [(lab, t)]
  | (k, v) :: rest, lab, t =>
    if k = lab then (k, v + t) :: rest else (k, v) :: addTime rest lab t

/-- Accumulated `end - start` per speaker over words with `start < enroll_ms`
(`label_time` in `map_enrollment_anchored`), in key insertion order. -/
def labelTimes (ws : List Word) (enroll : ℤ) : List (String × ℤ) :=
  ws.foldl (fun acc w =>
    if w.start < enroll then addTime acc w.speaker (w.end_ - w.start) else acc) []

/-- Word counts per speaker over words with `start >= chunk_start`
(`chunk_words_by_speaker`). -/
def chunkCounts (ws : List Word) (chunkStart : ℤ) : List (String × ℤ) :=
  ws.foldl (fun acc w =>
    if chunkStart ≤ w.start then addTime acc w.speaker 1 else acc) []

/-- Python's `max(xs, key=f)`: scan left to right, replace the best element only
on a strictly greater key, so the first maximal element wins; `none` on an empty
list (where Python would raise, which the code rules out beforehand). -/
def pickMaxBy {α : Type} (f : α → ℤ) : List α → Option α
  | [] => none
  | x :: xs => some (xs.foldl (fun b y => if f b < f y then y else b) x)

/-- Python's `int()` applied to a rational value: truncation toward zero. -/
def pyInt (q : ℚ) : ℤ := if 0 ≤ q then ⌊q⌋ else ⌈q⌉

/-- Result of `map_enrollment_anchored`: either
`{"status": "indeterminate", "reason": ..., "user_label": ...?}` (the
`no_enrollment_words` outcome carries no label, modelled by `none`) or
`{"status": "ok", "user_label": ..., "kept": [...]}`.  The `debug` payload is
observational and not modelled. -/
inductive MapResult where
  | indeterminate (reason : String) (user_label : Option String)
  | ok (user_label : String) (kept : List Segment)
  deriving DecidableEq, Repr

/-- Configuration read from `app.config.settings` by the mapper. -/
structure MapSettings where
  padMs : ℤ
  enrollDom : ℚ
  gapMs : ℤ
  minMs : ℤ
  minChars : ℕ
  useMajority : Bool
  deriving DecidableEq, Repr

/-- Defaults from `config.py`: `PAD_MS = 0`, `ENROLL_DOMINANCE = 0.8`,
`SEGMENT_GAP_MS = 500`, `SEGMENT_MIN_MS = 1000`, `SEGMENT_MIN_CHARS = 6`,
`USE_MAJORITY_SPEAKER = False`. -/
def defaultSettings : MapSettings := ⟨0, 4 / 5, 500, 1000, 6, false⟩

/-- Membership in the enrollment window: `w["start"] < enroll_ms`. -/
def inEnrollment (enroll : ℤ) (w : Word) : Prop := w.start < enroll

/-- Membership in the subject (chunk) region: `w["start"] >= chunk_start`. -/
def inSubject (chunkStart : ℤ) (w : Word) : Prop := chunkStart ≤ w.start

instance (e : ℤ) (w : Word) : Decidable (inEnrollment e w) :=
  inferInstanceAs (Decidable (w.start < e))

instance (c : ℤ) (w : Word) : Decidable (inSubject c w) :=
  inferInstanceAs (Decidable (c ≤ w.start))

/-- Chunk-region filter of the mapper:
`[w for w in stt_words if w["speaker"] == label and w["start"] >= chunk_start]`. -/
def userWordsOf (ws : List Word) (chunkStart : ℤ) (lab : String) : List Word :=
  ws.filter (fun w => w.speaker == lab && decide (chunkStart ≤ w.start))

/-- Label accepted in the chunk region: the enrollment label, or — when
`USE_MAJORITY_SPEAKER` is set and the chunk has words — the label with the most
chunk words (`actual_user_label` in the code). -/
def actualLabelOf (cfg : MapSettings) (ws : List Word) (chunkStart : ℤ)
    (fallback : String) : String :=
  if cfg.useMajority then
    match pickMaxBy (fun p : String × ℤ => p.2) (chunkCounts ws chunkStart) with
    | some p => p.1
    | none => fallback
  else fallback

/-- `map_enrollment_anchored(stt_words, enroll_ms)` from
`app/services/diarization_mapper.py`, with the configuration made explicit. -/
def mapEnrollmentAnchored (cfg : MapSettings) (ws : List Word) (enroll : ℤ) : MapResult :=
  match pickMaxBy (fun p => p.2) (labelTimes ws enroll) with
  | none => .indeterminate "no_enrollment_words" none
  | some (userLabel, domTime) =>
    if domTime < pyInt (cfg.enrollDom * (enroll : ℚ)) then
      .indeterminate "weak_enrollment_dominance" (some userLabel)
    else
      let chunkStart := enroll + cfg.padMs
      let actualLabel := actualLabelOf cfg ws chunkStart userLabel
      .ok actualLabel (keptSegments cfg.minMs cfg.minChars chunkStart
        (groupWords cfg.gapMs (userWordsOf ws chunkStart actualLabel)))

/-- Value of a key in an association list (0 when absent; `label_time` entries
are created before being read, and keys are unique by construction). -/
def lookupZ : List (String × ℤ) → String → ℤ
  | [], _ => 0
  | (k, v) :: rest, lab => if k = lab then v else lookupZ rest lab

/-- Total `end - start` time of a label's words inside the enrollment window:
the reference value the accumulated `label_time[label]` equals. -/
def windowTimeSum (ws : List Word) (enroll : ℤ) (lab : String) : ℤ :=
  ((ws.filter (fun w => decide (w.start < enroll) && (w.speaker == lab))).map
    (fun w => w.end_ - w.start)).sum

/-- Speaker labels in first-occurrence order, modelling the keys of the
`speaker_segments` dict built by `extract_embeddings_per_speaker`. -/
def labelsIn : List Word → List String
  | [] => []
  | w :: ws => w.speaker :: (labelsIn ws).filter (fun l => l != w.speaker)

/-- Longest-continuous-segment scan of `extract_embeddings_per_speaker`
(lines 216-241): extend the current span while the gap is strictly below
1000 ms, otherwise compare it against the best span and restart; the final
in-progress span is compared after the loop. -/
def longestSpanAux : ℤ → ℤ → (ℤ × ℤ) → ℤ → List Word → (ℤ × ℤ) × ℤ
  | curS, curE, best, bestD, [] =>
    if bestD < curE - curS then ((curS, curE), curE - curS) else (best, bestD)
  | curS, curE, best, bestD, w :: ws =>
    if w.start - curE < 1000 then longestSpanAux curS w.end_ best bestD ws
    else if bestD < curE - curS then
      longestSpanAux w.start w.end_ (curS, curE) (curE - curS) ws
    else longestSpanAux w.start w.end_ best bestD ws

/-- Longest continuous span of a speaker's word list with its duration
(`none` for an empty list, which the caller skips). -/
def longestSpan : List Word → Option ((ℤ × ℤ) × ℤ)
  | [] => none
  | w :: ws => some (longestSpanAux w.start w.end_ (w.start, w.end_) (w.end_ - w.start) ws)

/-- Contiguous spans of a word list under the strict `gap < 1000` merge rule:
the reference decomposition the scanning loop's best span is measured against. -/
def spansAux (s e : ℤ) : List Word → List (ℤ × ℤ)
  | [] => [(s, e)]
  | w :: ws =>
    if w.start - e < 1000 then spansAux s w.end_ ws
    else (s, e) :: spansAux w.start w.end_ ws

/-- Span decomposition of a whole word list (empty for the empty list). -/
def spans : List Word → List (ℤ × ℤ)
  | [] => []
  | w :: ws => spansAux w.start w.end_ ws

/-- Durations of the contiguous spans. -/
def spanDurations (l : List Word) : List ℤ := (spans l).map (fun p => p.2 - p.1)

/-- Maximum span duration of a word list (`none` on the empty list). -/
def maxSpanDur (l : List Word) : Option ℤ :=
  match spanDurations l with
  | [] => none
  | d :: ds => some (ds.foldl max d)

/-- Keep decision of `extract_embeddings_per_speaker` for one label: given the
label's longest span with its duration, keep the span only when it is at least
`min_duration_ms` long (`longest_duration >= min_duration_ms`). -/
def spanKeepOf (minDur : ℤ) (lab : String) (r : Option ((ℤ × ℤ) × ℤ)) :
    Option (String × (ℤ × ℤ)) :=
  match r with
  | none => none
  | some (best, d) => if minDur ≤ d then some (lab, best) else none

/-- `extract_embeddings_per_speaker` with the actual audio embedding call
abstracted away: for each label (in dict order), the longest continuous span of
its words, kept only when at least `min_duration_ms` long.  The returned pairs
are exactly the keys of the Python result dict together with the span each
embedding is extracted from. -/
def extractSpansPerSpeaker (ws : List Word) (minDur : ℤ) : List (String × (ℤ × ℤ)) :=
  (labelsIn ws).filterMap (fun lab =>
    spanKeepOf minDur lab (longestSpan (ws.filter (fun w => w.speaker == lab))))

/-- Dot product of two embedding vectors (`np.dot` on equal-length vectors). -/
noncomputable def dot (a b : List ℝ) : ℝ :=
  (List.zipWith (fun x y => x * y) a b).sum

/-- Euclidean norm, `np.linalg.norm`. -/
noncomputable def l2norm (v : List ℝ) : ℝ := Real.sqrt (dot v v)

/-- Defensive re-normalization `v / np.linalg.norm(v)` applied componentwise. -/
noncomputable def l2normalize (v : List ℝ) : List ℝ :=
  v.map (fun x => x / l2norm v)

/-- Componentwise sum of the windowed sub-embeddings (rows of the temporal
2-D array). -/
noncomputable def vecSum : List (List ℝ) → List ℝ
  | [] => []
  | [r] => r
  | r :: rs => List.zipWith (fun x y => x + y) r (vecSum rs)

/-- `np.mean(embeddings_array, axis=0)`: componentwise mean across windows. -/
noncomputable def vecMean (rows : List (List ℝ)) : List ℝ :=
  (vecSum rows).map (fun x => x / (rows.length : ℝ))

/-- Temporal-output reduction shared by `extract_embedding` and
`extract_embedding_from_segment`: mean across the window dimension followed by
L2 normalization. -/
noncomputable def reduceTemporal (rows : List (List ℝ)) : List ℝ :=
  l2normalize (vecMean rows)

/-- `cosine_similarity(embedding1, embedding2)`: dot product after dividing
each argument by its own L2 norm. -/
noncomputable def cosineSimilarity (a b : List ℝ) : ℝ :=
  dot (l2normalize a) (l2normalize b)

/-- Body of the matching loop of `match_speaker_to_enrollment`: replace the
best match only when the similarity strictly exceeds the best score so far. -/
noncomputable def matchStep (enr : List ℝ) (acc : Option String × ℝ)
    (p : String × List ℝ) : Option String × ℝ :=
  if acc.2 < cosineSimilarity enr p.2 then (some p.1, cosineSimilarity enr p.2) else acc

/-- Scanning loop of `match_speaker_to_enrollment(enrollment_embedding,
speaker_embeddings, threshold)` (lines 271-292): best match starts at
`(None, threshold)` and the label of the final best pair is the value the
`return best_match` statement yields.  The function's logging epilogue — which
can itself raise — is modelled separately by `matchSpeakerChecked`. -/
noncomputable def matchSpeaker (enr : List ℝ) (spks : List (String × List ℝ))
    (thr : ℝ) : Option String :=
  (spks.foldl (matchStep enr) (none, thr)).1

/-- Whole of `match_speaker_to_enrollment` including its logging epilogue
(lines 294-303): when `best_match` is still `None`, the no-match branch
interpolates `max(similarities.values())` into its log message, and on an empty
`speaker_embeddings` dict (empty `similarities`) that `max()` call raises a
`ValueError` before the function can return; in every other case the scan's
best match (or `None`) is returned normally. -/
noncomputable def matchSpeakerChecked (enr : List ℝ) (spks : List (String × List ℝ))
    (thr : ℝ) : Except String (Option String) :=
  match matchSpeaker enr spks thr, spks with
  | some l, _ => Except.ok (some l)
  | none, [] => Except.error "ValueError: max() arg is an empty sequence"
  | none, _ :: _ => Except.ok none

/-- Concrete word used by the C1 counterexample. -/
def c1BadWord : Word := ⟨0, 2, "A", some 1, "x"⟩

/-- Mapper settings with a positive silence pad (`PAD_MS = 1`), used by the C9
counterexample. -/
def c9Settings : MapSettings := ⟨1, 4 / 5, 500, 1000, 6, false⟩

/-- Word starting exactly at the enrollment boundary, inside the pad gap. -/
def c9Word : Word := ⟨1000, 5000, "A", some 1, "xyzxyzxyz"⟩

/-- Input list for the C9 counterexample. -/
def c9Words : List Word := [⟨0, 1000, "A", some 1, "hello"⟩, c9Word]

/-- Unsorted input list for the C5 counterexample. -/
def c5Words : List Word :=
  [⟨5000, 12000, "A", some 1, "abcdefg"⟩, ⟨12600, 100, "A", some 1, "q"⟩,
   ⟨700, 2000, "A", some 1, "abcdefg"⟩]

/-- Enrollment words used by the C1 witness. -/
def c1GoodWords : List Word :=
  [⟨0, 900, "A", some 1, "hi"⟩, ⟨900, 1000, "B", some 1, "yo"⟩]

/-- Sorted input list used by the C5 witness. -/
def c5SortedWords : List Word :=
  [⟨0, 2000, "A", some 1, "abcdefg"⟩, ⟨3000, 4500, "A", some 1, "hijklmn"⟩]

/-- Diarized words used by the C4 witness. -/
def c4Words : List Word :=
  [⟨0, 2000, "A", some 1, "hello"⟩, ⟨2500, 4000, "A", some 1, "world"⟩,
   ⟨0, 500, "B", some 1, "hi"⟩]

theorem keptSegments_eq (minMs : ℤ) (minChars : ℕ) (rs : ℤ) :
    ∀ gs : List (List Word),
      keptSegments minMs minChars rs gs =
        (gs.filter (keepSeg minMs minChars rs)).map (segOf rs)
  | [] => rfl
  | g :: gs => by
    by_cases h : keepSeg minMs minChars rs g = true
    · simp [keptSegments, List.filter_cons, h, keptSegments_eq minMs minChars rs gs]
    · simp [keptSegments, List.filter_cons, h, keptSegments_eq minMs minChars rs gs]

/-- C3: in both inlined segment builders a grouped run is emitted iff its
duration is at least `min_duration_ms` AND its joined text has at least
`min_chars` characters (conjunction, not disjunction), and every emitted
segment's `avg_conf` is the arithmetic mean of its words' confidences with a
missing confidence defaulting to 1. -/
theorem c3_segment_keep_rule (minMs : ℤ) (minChars : ℕ) (rs : ℤ)
    (gs : List (List Word)) :
    keptSegments minMs minChars rs gs =
      (gs.filter (keepSeg minMs minChars rs)).map (segOf rs) ∧
    (∀ g : List Word, keepSeg minMs minChars rs g = true ↔
      (minMs ≤ segEnd rs g - segStart rs g ∧ minChars ≤ (segText g).length)) ∧
    (∀ s ∈ keptSegments minMs minChars rs gs, ∃ g ∈ gs, s = segOf rs g ∧
      s.avg_conf = (g.map (fun w => w.confidence.getD 1)).sum / (g.length : ℚ)) := by
  refine ⟨keptSegments_eq minMs minChars rs gs, ?_, ?_⟩
  · intro g
    simp [keepSeg, Bool.and_eq_true, decide_eq_true_eq]
  · intro s hs
    rw [keptSegments_eq] at hs
    obtain ⟨g, hg, rfl⟩ := List.mem_map.mp hs
    exact ⟨g, (List.mem_filter.mp hg).1, rfl, rfl⟩

theorem groupWords_cons (gap : ℤ) : ∀ (w : Word) (ws : List Word),
    ∃ t gs, groupWords gap (w :: ws) = (w :: t) :: gs
  | _, [] => ⟨[], [], rfl⟩
  | w, w' :: ws => by
    obtain ⟨t, gs, h⟩ := groupWords_cons gap w' ws
    by_cases hc : w'.start - w.end_ ≤ gap
    · exact ⟨w' :: t, gs, by simp only [groupWords, h]; simp [hc]⟩
    · exact ⟨[], (w' :: t) :: gs, by simp only [groupWords, h]; simp [hc]⟩

theorem mem_groupWords_ne_nil (gap : ℤ) :
    ∀ (ws : List Word) (g : List Word), g ∈ groupWords gap ws → g ≠ []
  | [], g, hg => by simp [groupWords] at hg
  | [w], g, hg => by
    simp [groupWords] at hg
    subst hg
    simp
  | w :: w' :: ws, g, hg => by
    have ih := mem_groupWords_ne_nil gap (w' :: ws)
    obtain ⟨t, gs, h⟩ := groupWords_cons gap w' ws
    simp only [groupWords, h] at hg
    by_cases hc : w'.start - w.end_ ≤ gap
    · rw [if_pos hc] at hg
      rcases List.mem_cons.mp hg with rfl | hmem
      · simp
      · exact ih g (by rw [h]; exact List.mem_cons_of_mem _ hmem)
    · rw [if_neg hc] at hg
      rcases List.mem_cons.mp hg with rfl | hmem
      · simp
      · exact ih g (by rw [h]; exact hmem)

theorem flatten_groupWords (gap : ℤ) : ∀ ws : List Word, (groupWords gap ws).flatten = ws
  | [] => rfl
  | [w] => rfl
  | w :: w' :: ws => by
    have ih := flatten_groupWords gap (w' :: ws)
    obtain ⟨t, gs, h⟩ := groupWords_cons gap w' ws
    rw [h] at ih
    have ih' : t ++ gs.flatten = ws := by simpa using ih
    simp only [groupWords, h]
    by_cases hc : w'.start - w.end_ ≤ gap
    · rw [if_pos hc]
      simp [ih']
    · rw [if_neg hc]
      simp [ih']

theorem chain'_groupWords (gap : ℤ) : ∀ ws : List Word,
    List.Chain' (fun g h => lastEnd g + gap < firstStart h) (groupWords gap ws)
  | [] => by simp [groupWords]
  | [w] => by simp [groupWords]
  | w :: w' :: ws => by
    have ih := chain'_groupWords gap (w' :: ws)
    obtain ⟨t, gs, h⟩ := groupWords_cons gap w' ws
    rw [h] at ih
    simp only [groupWords, h]
    by_cases hc : w'.start - w.end_ ≤ gap
    · rw [if_pos hc]
      cases gs with
      | nil => simp
      | cons g2 gs2 =>
        have hpair := List.chain'_cons.mp ih
        refine List.chain'_cons.mpr ⟨?_, hpair.2⟩
        have he : lastEnd (w :: w' :: t) = lastEnd (w' :: t) := rfl
        rw [he]
        exact hpair.1
    · rw [if_neg hc]
      refine List.chain'_cons.mpr ⟨?_, ih⟩
      show lastEnd [w] + gap < firstStart (w' :: t)
      simp only [lastEnd, firstStart]
      omega

theorem chain'_pairwise {α : Type} {S T : α → α → Prop}
    (hst : ∀ a b c, S a b → T b c → S a c) :
    ∀ l : List α, List.Chain' S l → List.Pairwise T l → List.Pairwise S l
  | [], _, _ => List.Pairwise.nil
  | a :: l, hc, hp => by
    have htail : List.Pairwise S l :=
      chain'_pairwise hst l hc.tail (List.Pairwise.of_cons hp)
    refine List.pairwise_cons.mpr ⟨?_, htail⟩
    intro b hb
    cases l with
    | nil => simp at hb
    | cons a' l' =>
      have hsa : S a a' := (List.chain'_cons.mp hc).1
      rcases List.mem_cons.mp hb with rfl | hb'
      · exact hsa
      · have hT : T a' b := (List.pairwise_cons.mp (List.Pairwise.of_cons hp)).1 b hb'
        exact hst a a' b hsa hT

theorem pairwise_groupWords (gap : ℤ) (ws : List Word)
    (hs : ws.Pairwise (fun a b => a.start ≤ b.start)) :
    (groupWords gap ws).Pairwise (fun g h => lastEnd g + gap < firstStart h) := by
  have hjoin := flatten_groupWords gap ws
  have hpj : (groupWords gap ws).Pairwise
      (fun g h => ∀ x ∈ g, ∀ y ∈ h, x.start ≤ y.start) :=
    (List.pairwise_flatten.mp (by rw [hjoin]; exact hs)).2
  have hT : (groupWords gap ws).Pairwise (fun g h => firstStart g ≤ firstStart h) := by
    refine List.Pairwise.imp_of_mem ?_ hpj
    intro g h hg hh hrel
    have hgne := mem_groupWords_ne_nil gap ws g hg
    have hhne := mem_groupWords_ne_nil gap ws h hh
    cases g with
    | nil => exact absurd rfl hgne
    | cons x g' =>
      cases h with
      | nil => exact absurd rfl hhne
      | cons y h' =>
        exact hrel x (List.mem_cons_self x g') y (List.mem_cons_self y h')
  exact chain'_pairwise (S := fun g h => lastEnd g + gap < firstStart h)
    (T := fun g h => firstStart g ≤ firstStart h)
    (fun a b c hab hbc => lt_of_lt_of_le hab hbc) _
    (chain'_groupWords gap ws) hT

/-- C5 (amended): for word lists sorted by ascending start the builder's kept
segments are pairwise disjoint in output order (each ends strictly before the
next starts, hence sorted by ascending start) and, when `SEGMENT_MIN_MS` is
positive, every kept segment satisfies `end_ms > start_ms`; the unsorted case
is refuted separately. -/
theorem c5_sorted_builder (gap minMs : ℤ) (minChars : ℕ) (rs : ℤ) (ws : List Word)
    (hgap : 0 ≤ gap) (hmin : 0 < minMs)
    (hs : ws.Pairwise (fun a b => a.start ≤ b.start)) :
    (keptSegments minMs minChars rs (groupWords gap ws)).Pairwise
      (fun s t => s.end_ms < t.start_ms) ∧
    ∀ s ∈ keptSegments minMs minChars rs (groupWords gap ws),
      s.start_ms < s.end_ms := by
  have hpair := pairwise_groupWords gap ws hs
  rw [keptSegments_eq]
  constructor
  · have hfil := hpair.filter (keepSeg minMs minChars rs)
    rw [List.pairwise_map]
    refine hfil.imp ?_
    intro g h hrel
    show segEnd rs g < segStart rs h
    simp only [segEnd, segStart]
    omega
  · intro s hs'
    obtain ⟨g, hg, rfl⟩ := List.mem_map.mp hs'
    have hk := (List.mem_filter.mp hg).2
    simp only [keepSeg, Bool.and_eq_true, decide_eq_true_eq] at hk
    show segStart rs g < segEnd rs g
    omega

/-- C5 counterexample: on an input list that is not sorted by ascending
`start_ms` the mapper's builder emits kept segments out of order (starts 5000
then 700) which moreover overlap, so the claimed unconditional invariant
fails. -/
theorem c5_unsorted_counterexample :
    ¬ (keptSegments 1000 6 0 (groupWords 500 c5Words)).Pairwise
      (fun s t => s.start_ms ≤ t.start_ms) := by decide

theorem foldl_max_mem {α : Type} (f : α → ℤ) :
    ∀ (xs : List α) (b : α),
      xs.foldl (fun u y => if f u < f y then y else u) b = b ∨
        xs.foldl (fun u y => if f u < f y then y else u) b ∈ xs
  | [], _ => Or.inl rfl
  | x :: xs, b => by
    simp only [List.foldl_cons]
    rcases foldl_max_mem f xs (if f b < f x then x else b) with h | h
    · rw [h]
      by_cases hc : f b < f x
      · rw [if_pos hc]
        exact Or.inr (List.mem_cons_self x xs)
      · rw [if_neg hc]
        exact Or.inl rfl
    · exact Or.inr (List.mem_cons_of_mem x h)

theorem foldl_max_le {α : Type} (f : α → ℤ) :
    ∀ (xs : List α) (b : α),
      f b ≤ f (xs.foldl (fun u y => if f u < f y then y else u) b) ∧
      ∀ y ∈ xs, f y ≤ f (xs.foldl (fun u y => if f u < f y then y else u) b)
  | [], b => ⟨le_refl _, by simp⟩
  | x :: xs, b => by
    obtain ⟨h1, h2⟩ := foldl_max_le f xs (if f b < f x then x else b)
    simp only [List.foldl_cons]
    have hb : f b ≤ f (if f b < f x then x else b) := by
      by_cases hc : f b < f x
      · rw [if_pos hc]
        exact le_of_lt hc
      · rw [if_neg hc]
    have hx : f x ≤ f (if f b < f x then x else b) := by
      by_cases hc : f b < f x
      · rw [if_pos hc]
      · rw [if_neg hc]
        omega
    refine ⟨le_trans hb h1, ?_⟩
    intro y hy
    rcases List.mem_cons.mp hy with rfl | hy'
    · exact le_trans hx h1
    · exact h2 y hy'

theorem pickMaxBy_spec {α : Type} (f : α → ℤ) (l : List α) (m : α)
    (h : pickMaxBy f l = some m) : m ∈ l ∧ ∀ y ∈ l, f y ≤ f m := by
  cases l with
  | nil => simp [pickMaxBy] at h
  | cons x xs =>
    simp only [pickMaxBy, Option.some.injEq] at h
    subst h
    constructor
    · rcases foldl_max_mem f xs x with h | h
      · rw [h]
        exact List.mem_cons_self x xs
      · exact List.mem_cons_of_mem x h
    · intro y hy
      obtain ⟨h1, h2⟩ := foldl_max_le f xs x
      rcases List.mem_cons.mp hy with rfl | hy'
      · exact h1
      · exact h2 y hy'

theorem pickMaxBy_eq_none {α : Type} (f : α → ℤ) (l : List α) :
    pickMaxBy f l = none ↔ l = [] := by
  cases l <;> simp [pickMaxBy]

theorem addTime_ne_nil : ∀ (acc : List (String × ℤ)) (lab : String) (t : ℤ),
    addTime acc lab t ≠ []
  | [], _, _ => by simp [addTime]
  | (k, v) :: rest, lab, t => by
    by_cases h : k = lab <;> simp [addTime, h]

theorem lookupZ_addTime : ∀ (acc : List (String × ℤ)) (lab l : String) (t : ℤ),
    lookupZ (addTime acc lab t) l = lookupZ acc l + (if lab = l then t else 0)
  | [], lab, l, t => by
    by_cases h : lab = l <;> simp [addTime, lookupZ, h]
  | (k, v) :: rest, lab, l, t => by
    by_cases hk : k = lab
    · subst hk
      by_cases hl : k = l
      · subst hl
        simp [addTime, lookupZ]
      · simp [addTime, lookupZ, hl, fun h => hl (h : k = l)]
    · by_cases hl : k = l
      · subst hl
        have hlk : lab ≠ k := fun h => hk h.symm
        simp [addTime, lookupZ, hk, hlk]
      · simp [addTime, lookupZ, hk, hl, lookupZ_addTime rest lab l t]

theorem labelTimes_foldl_nil (enroll : ℤ) :
    ∀ (ws : List Word) (acc : List (String × ℤ)),
      ws.foldl (fun acc w =>
        if w.start < enroll then addTime acc w.speaker (w.end_ - w.start) else acc) acc
          = [] ↔
        (acc = [] ∧ ∀ w ∈ ws, ¬ w.start < enroll)
  | [], acc => by simp
  | w :: ws, acc => by
    simp only [List.foldl_cons]
    by_cases hc : w.start < enroll
    · rw [if_pos hc, labelTimes_foldl_nil enroll ws _]
      simp [addTime_ne_nil acc w.speaker (w.end_ - w.start), hc]
    · rw [if_neg hc, labelTimes_foldl_nil enroll ws acc]
      constructor
      · rintro ⟨ha, hrest⟩
        refine ⟨ha, fun w' hw' => ?_⟩
        rcases List.mem_cons.mp hw' with rfl | h'
        · exact hc
        · exact hrest w' h'
      · rintro ⟨ha, hall⟩
        exact ⟨ha, fun w' hw' => hall w' (List.mem_cons_of_mem _ hw')⟩

theorem labelTimes_eq_nil (ws : List Word) (enroll : ℤ) :
    labelTimes ws enroll = [] ↔ ∀ w ∈ ws, ¬ w.start < enroll := by
  unfold labelTimes
  rw [labelTimes_foldl_nil]
  simp

theorem lookupZ_foldl_labelTimes (enroll : ℤ) (lab : String) :
    ∀ (ws : List Word) (acc : List (String × ℤ)),
      lookupZ (ws.foldl (fun acc w =>
        if w.start < enroll then addTime acc w.speaker (w.end_ - w.start) else acc) acc) lab
        = lookupZ acc lab + windowTimeSum ws enroll lab
  | [], acc => by simp [windowTimeSum]
  | w :: ws, acc => by
    have hsum : windowTimeSum (w :: ws) enroll lab =
        (if decide (w.start < enroll) && (w.speaker == lab) then w.end_ - w.start else 0)
          + windowTimeSum ws enroll lab := by
      simp only [windowTimeSum, List.filter_cons]
      by_cases hcond : (decide (w.start < enroll) && (w.speaker == lab)) = true
      · rw [if_pos hcond, if_pos hcond]
        simp
      · rw [if_neg hcond, if_neg hcond]
        simp
    simp only [List.foldl_cons]
    rw [hsum]
    by_cases hc : w.start < enroll
    · rw [if_pos hc, lookupZ_foldl_labelTimes enroll lab ws _, lookupZ_addTime]
      by_cases hs : w.speaker = lab
      · have hcond : (decide (w.start < enroll) && (w.speaker == lab)) = true := by
          simp [hc, hs]
        rw [hcond, if_pos hs]
        simp only [if_true]
        omega
      · have hcond : (decide (w.start < enroll) && (w.speaker == lab)) = false := by
          simp [hs]
        rw [hcond, if_neg hs]
        simp only [Bool.false_eq_true, if_false]
        omega
    · rw [if_neg hc, lookupZ_foldl_labelTimes enroll lab ws acc]
      have hcond : (decide (w.start < enroll) && (w.speaker == lab)) = false := by
        simp [hc]
      rw [hcond]
      simp only [Bool.false_eq_true, if_false]
      omega

theorem lookupZ_labelTimes (ws : List Word) (enroll : ℤ) (lab : String) :
    lookupZ (labelTimes ws enroll) lab = windowTimeSum ws enroll lab := by
  unfold labelTimes
  rw [lookupZ_foldl_labelTimes]
  simp [lookupZ]

theorem mem_addTime_key : ∀ (acc : List (String × ℤ)) (lab : String) (t : ℤ)
    (q : String × ℤ), q ∈ addTime acc lab t → q.1 = lab ∨ q.1 ∈ acc.map Prod.fst
  | [], lab, t, q => by
    intro h
    rcases List.mem_singleton.mp (by simpa [addTime] using h) with rfl
    exact Or.inl rfl
  | (k, v) :: rest, lab, t, q => by
    by_cases hk : k = lab
    · subst hk
      simp only [addTime, if_pos rfl]
      intro h
      rcases List.mem_cons.mp h with rfl | h'
      · exact Or.inl rfl
      · exact Or.inr (List.mem_cons_of_mem _ (List.mem_map_of_mem Prod.fst h'))
    · simp only [addTime, if_neg hk]
      intro h
      rcases List.mem_cons.mp h with rfl | h'
      · exact Or.inr (by simp)
      · rcases mem_addTime_key rest lab t q h' with h1 | h2
        · exact Or.inl h1
        · exact Or.inr (List.mem_cons_of_mem _ h2)

theorem pairwiseKeys_addTime : ∀ (acc : List (String × ℤ)) (lab : String) (t : ℤ),
    acc.Pairwise (fun p q => p.1 ≠ q.1) →
    (addTime acc lab t).Pairwise (fun p q => p.1 ≠ q.1)
  | [], lab, t, _ => by simp [addTime]
  | (k, v) :: rest, lab, t, hp => by
    obtain ⟨h1, h2⟩ := List.pairwise_cons.mp hp
    by_cases hk : k = lab
    · subst hk
      simp only [addTime, if_pos rfl]
      exact List.pairwise_cons.mpr ⟨h1, h2⟩
    · simp only [addTime, if_neg hk]
      refine List.pairwise_cons.mpr ⟨?_, pairwiseKeys_addTime rest lab t h2⟩
      intro q hq
      rcases mem_addTime_key rest lab t q hq with hq1 | hq2
      · rw [hq1]
        exact hk
      · obtain ⟨p, hp', hpe⟩ := List.mem_map.mp hq2
        exact hpe ▸ h1 p hp'

theorem pairwiseKeys_labelTimes_foldl (enroll : ℤ) :
    ∀ (ws : List Word) (acc : List (String × ℤ)),
      acc.Pairwise (fun p q => p.1 ≠ q.1) →
      (ws.foldl (fun acc w =>
        if w.start < enroll then addTime acc w.speaker (w.end_ - w.start) else acc)
        acc).Pairwise (fun p q => p.1 ≠ q.1)
  | [], _, h => h
  | w :: ws, acc, h => by
    simp only [List.foldl_cons]
    by_cases hc : w.start < enroll
    · rw [if_pos hc]
      exact pairwiseKeys_labelTimes_foldl enroll ws _ (pairwiseKeys_addTime acc _ _ h)
    · rw [if_neg hc]
      exact pairwiseKeys_labelTimes_foldl enroll ws acc h

theorem pairwiseKeys_labelTimes (ws : List Word) (enroll : ℤ) :
    (labelTimes ws enroll).Pairwise (fun p q => p.1 ≠ q.1) := by
  unfold labelTimes
  exact pairwiseKeys_labelTimes_foldl enroll ws [] List.Pairwise.nil

theorem lookupZ_of_mem : ∀ (acc : List (String × ℤ)) (l : String) (t : ℤ),
    acc.Pairwise (fun p q => p.1 ≠ q.1) → (l, t) ∈ acc → lookupZ acc l = t
  | [], l, t, _, h => by simp at h
  | (k, v) :: rest, l, t, hp, h => by
    obtain ⟨h1, h2⟩ := List.pairwise_cons.mp hp
    rcases List.mem_cons.mp h with heq | hmem
    · injection heq with h3 h4
      subst h3
      subst h4
      simp [lookupZ]
    · have hk : k ≠ l := h1 (l, t) hmem
      simp only [lookupZ, if_neg hk]
      exact lookupZ_of_mem rest l t h2 hmem

theorem mem_key_addTime_self : ∀ (acc : List (String × ℤ)) (lab : String) (t : ℤ),
    lab ∈ (addTime acc lab t).map Prod.fst
  | [], lab, t => by simp [addTime]
  | (k, v) :: rest, lab, t => by
    by_cases hk : k = lab
    · subst hk
      simp [addTime]
    · simp only [addTime, if_neg hk, List.map_cons]
      exact List.mem_cons_of_mem _ (mem_key_addTime_self rest lab t)

theorem mem_key_addTime_mono : ∀ (acc : List (String × ℤ)) (lab lab' : String) (t : ℤ),
    lab ∈ acc.map Prod.fst → lab ∈ (addTime acc lab' t).map Prod.fst
  | [], lab, lab', t, h => by simp at h
  | (k, v) :: rest, lab, lab', t, h => by
    by_cases hk : k = lab'
    · subst hk
      simpa [addTime] using h
    · simp only [addTime, if_neg hk, List.map_cons] at h ⊢
      rcases List.mem_cons.mp h with rfl | h'
      · exact List.mem_cons_self _ _
      · exact List.mem_cons_of_mem _ (mem_key_addTime_mono rest lab lab' t h')

theorem mem_key_labelTimes_foldl (enroll : ℤ) :
    ∀ (ws : List Word) (acc : List (String × ℤ)) (lab : String),
      lab ∈ acc.map Prod.fst →
      lab ∈ (ws.foldl (fun acc w =>
        if w.start < enroll then addTime acc w.speaker (w.end_ - w.start) else acc)
        acc).map Prod.fst
  | [], _, _, h => h
  | w :: ws, acc, lab, h => by
    simp only [List.foldl_cons]
    by_cases hc : w.start < enroll
    · rw [if_pos hc]
      exact mem_key_labelTimes_foldl enroll ws _ lab (mem_key_addTime_mono acc lab w.speaker _ h)
    · rw [if_neg hc]
      exact mem_key_labelTimes_foldl enroll ws acc lab h

theorem speaker_mem_labelTimes (enroll : ℤ) :
    ∀ (ws : List Word) (acc : List (String × ℤ)) (w : Word), w ∈ ws → w.start < enroll →
      w.speaker ∈ (ws.foldl (fun acc w =>
        if w.start < enroll then addTime acc w.speaker (w.end_ - w.start) else acc)
        acc).map Prod.fst
  | [], _, w, h, _ => by simp at h
  | w' :: ws, acc, w, h, hs => by
    simp only [List.foldl_cons]
    rcases List.mem_cons.mp h with rfl | h'
    · rw [if_pos hs]
      exact mem_key_labelTimes_foldl enroll ws _ w.speaker (mem_key_addTime_self acc w.speaker _)
    · by_cases hc : w'.start < enroll
      · rw [if_pos hc]
        exact speaker_mem_labelTimes enroll ws _ w h' hs
      · rw [if_neg hc]
        exact speaker_mem_labelTimes enroll ws acc w h' hs

theorem mapEA_none (cfg : MapSettings) (ws : List Word) (enroll : ℤ)
    (hp : pickMaxBy (fun p : String × ℤ => p.2) (labelTimes ws enroll) = none) :
    mapEnrollmentAnchored cfg ws enroll =
      MapResult.indeterminate "no_enrollment_words" none := by
  unfold mapEnrollmentAnchored
  rw [hp]

theorem mapEA_some (cfg : MapSettings) (ws : List Word) (enroll : ℤ) (l : String)
    (t : ℤ)
    (hp : pickMaxBy (fun p : String × ℤ => p.2) (labelTimes ws enroll) = some (l, t)) :
    mapEnrollmentAnchored cfg ws enroll =
      if t < pyInt (cfg.enrollDom * (enroll : ℚ)) then
        MapResult.indeterminate "weak_enrollment_dominance" (some l)
      else
        MapResult.ok (actualLabelOf cfg ws (enroll + cfg.padMs) l)
          (keptSegments cfg.minMs cfg.minChars (enroll + cfg.padMs)
            (groupWords cfg.gapMs (userWordsOf ws (enroll + cfg.padMs)
              (actualLabelOf cfg ws (enroll + cfg.padMs) l)))) := by
  unfold mapEnrollmentAnchored
  rw [hp]

theorem actualLabelOf_nomaj (cfg : MapSettings) (hmaj : cfg.useMajority = false)
    (ws : List Word) (cs : ℤ) (fb : String) : actualLabelOf cfg ws cs fb = fb := by
  simp [actualLabelOf, hmaj]

/-- C6: the anchored mapper returns the `indeterminate/no_enrollment_words`
value exactly when no input word starts before `enroll_ms`; the outcome is a
returned value of the (total) mapping function, not an exception. -/
theorem c6_no_enrollment_words (cfg : MapSettings) (ws : List Word) (enroll : ℤ) :
    mapEnrollmentAnchored cfg ws enroll =
      MapResult.indeterminate "no_enrollment_words" none ↔
      ∀ w ∈ ws, ¬ inEnrollment enroll w := by
  cases hp : pickMaxBy (fun p : String × ℤ => p.2) (labelTimes ws enroll) with
  | none =>
    have hnil : labelTimes ws enroll = [] := (pickMaxBy_eq_none _ _).mp hp
    constructor
    · intro _ w hw
      exact (labelTimes_eq_nil ws enroll).mp hnil w hw
    · intro _
      exact mapEA_none cfg ws enroll hp
  | some p =>
    obtain ⟨l, t⟩ := p
    have hne : labelTimes ws enroll ≠ [] := by
      intro hl
      rw [(pickMaxBy_eq_none _ _).mpr hl] at hp
      exact Option.noConfusion hp
    constructor
    · intro hres
      rw [mapEA_some cfg ws enroll l t hp] at hres
      by_cases hd : t < pyInt (cfg.enrollDom * (enroll : ℚ))
      · rw [if_pos hd] at hres
        simp at hres
      · rw [if_neg hd] at hres
        simp at hres
    · intro hall
      exact absurd ((labelTimes_eq_nil ws enroll).mpr fun w hw => hall w hw) hne

/-- C1 (amended): the anchored mapper's dominant label maximizes accumulated
`end - start` time over enrollment-window words, the weak-dominance check
divides by `enroll_ms` itself (not total observed speech), and the
`indeterminate/weak_enrollment_dominance` result — carrying the tentative
label — is returned exactly when the dominant time is below
`int(dominance_threshold * enroll_ms)`, i.e. below the threshold product
truncated to an integer; otherwise the result is `ok`. -/
theorem c1_dominance_rule (cfg : MapSettings) (ws : List Word) (enroll : ℤ)
    (hmaj : cfg.useMajority = false) (h : ∃ w ∈ ws, w.start < enroll) :
    ∃ l t, pickMaxBy (fun p : String × ℤ => p.2) (labelTimes ws enroll) = some (l, t) ∧
      t = windowTimeSum ws enroll l ∧
      (∀ w ∈ ws, w.start < enroll → windowTimeSum ws enroll w.speaker ≤ t) ∧
      (mapEnrollmentAnchored cfg ws enroll =
          MapResult.indeterminate "weak_enrollment_dominance" (some l) ↔
        t < pyInt (cfg.enrollDom * (enroll : ℚ))) ∧
      (pyInt (cfg.enrollDom * (enroll : ℚ)) ≤ t →
        mapEnrollmentAnchored cfg ws enroll =
          MapResult.ok l (keptSegments cfg.minMs cfg.minChars (enroll + cfg.padMs)
            (groupWords cfg.gapMs (userWordsOf ws (enroll + cfg.padMs) l)))) := by
  obtain ⟨w0, hw0, hs0⟩ := h
  have hne : labelTimes ws enroll ≠ [] := by
    intro hl
    exact ((labelTimes_eq_nil ws enroll).mp hl w0 hw0) hs0
  cases hp : pickMaxBy (fun p : String × ℤ => p.2) (labelTimes ws enroll) with
  | none => exact absurd ((pickMaxBy_eq_none _ _).mp hp) hne
  | some p =>
    obtain ⟨l, t⟩ := p
    obtain ⟨hmem, hmax⟩ := pickMaxBy_spec _ _ _ hp
    have hpk := pairwiseKeys_labelTimes ws enroll
    have ht : t = windowTimeSum ws enroll l := by
      rw [← lookupZ_labelTimes]
      exact (lookupZ_of_mem _ _ _ hpk hmem).symm
    refine ⟨l, t, rfl, ht, ?_, ?_, ?_⟩
    · intro w hw hws
      have hkey : w.speaker ∈ (labelTimes ws enroll).map Prod.fst := by
        unfold labelTimes
        exact speaker_mem_labelTimes enroll ws [] w hw hws
      obtain ⟨p, hp', hpe⟩ := List.mem_map.mp hkey
      obtain ⟨pk, pv⟩ := p
      have hpe' : pk = w.speaker := hpe
      subst hpe'
      have hv : pv ≤ t := hmax (w.speaker, pv) hp'
      rw [← lookupZ_labelTimes, lookupZ_of_mem _ _ _ hpk hp']
      exact hv
    · rw [mapEA_some cfg ws enroll l t hp]
      by_cases hd : t < pyInt (cfg.enrollDom * (enroll : ℚ))
      · rw [if_pos hd]
        simp [hd]
      · rw [if_neg hd]
        simp [hd]
    · intro hge
      rw [mapEA_some cfg ws enroll l t hp, if_neg (not_lt.mpr hge),
        actualLabelOf_nomaj cfg hmaj]

/-- C1 counterexample: with the default threshold 0.8 and `enroll_ms = 3`, the
dominant accumulated time 2 is strictly below `0.8 * 3 = 2.4`, yet the code
compares against `int(0.8 * 3) = 2` and therefore proceeds to an `ok` result
instead of the `weak_enrollment_dominance` outcome the claim requires. -/
theorem c1_truncation_counterexample :
    mapEnrollmentAnchored defaultSettings [c1BadWord] 3 = MapResult.ok "A" [] ∧
    windowTimeSum [c1BadWord] 3 "A" = 2 ∧
    (2 : ℚ) < defaultSettings.enrollDom * (3 : ℚ) := by
  refine ⟨?_, by decide, by norm_num [defaultSettings]⟩
  have hp : pickMaxBy (fun p : String × ℤ => p.2) (labelTimes [c1BadWord] 3) =
      some ("A", 2) := by decide
  rw [mapEA_some defaultSettings [c1BadWord] 3 "A" 2 hp]
  have hpy : pyInt (defaultSettings.enrollDom * ((3 : ℤ) : ℚ)) = 2 := by
    have h38 : defaultSettings.enrollDom * ((3 : ℤ) : ℚ) = 12 / 5 := by
      norm_num [defaultSettings]
    rw [pyInt, h38, if_pos (by norm_num)]
    rw [Int.floor_eq_iff]
    constructor <;> norm_num
  rw [hpy, if_neg (by omega), actualLabelOf_nomaj defaultSettings rfl]
  have hu : userWordsOf [c1BadWord] (3 + defaultSettings.padMs) "A" = [] := by decide
  rw [hu]
  rfl

/-- Witness for `c1_dominance_rule` at a concrete two-speaker enrollment. -/
theorem c1_dominance_rule_witness :
    defaultSettings.useMajority = false ∧ (∃ w ∈ c1GoodWords, w.start < 1000) ∧
    (∃ l t, pickMaxBy (fun p : String × ℤ => p.2) (labelTimes c1GoodWords 1000) =
        some (l, t) ∧
      t = windowTimeSum c1GoodWords 1000 l ∧
      (∀ w ∈ c1GoodWords, w.start < 1000 →
        windowTimeSum c1GoodWords 1000 w.speaker ≤ t) ∧
      (mapEnrollmentAnchored defaultSettings c1GoodWords 1000 =
          MapResult.indeterminate "weak_enrollment_dominance" (some l) ↔
        t < pyInt (defaultSettings.enrollDom * ((1000 : ℤ) : ℚ))) ∧
      (pyInt (defaultSettings.enrollDom * ((1000 : ℤ) : ℚ)) ≤ t →
        mapEnrollmentAnchored defaultSettings c1GoodWords 1000 =
          MapResult.ok l (keptSegments defaultSettings.minMs defaultSettings.minChars
            (1000 + defaultSettings.padMs)
            (groupWords defaultSettings.gapMs
              (userWordsOf c1GoodWords (1000 + defaultSettings.padMs) l))))) :=
  ⟨rfl, by decide, c1_dominance_rule defaultSettings c1GoodWords 1000 rfl (by decide)⟩

/-- C9 counterexample: with `PAD_MS = 1` the word starting exactly at
`enroll_ms` is in neither region — it is not an enrollment word, not a subject
word, and never reaches the segment builder — refuting the claim that for every
`pad_ms ≥ 0` no input word is excluded from both regions. -/
theorem c9_pad_gap_counterexample :
    0 ≤ c9Settings.padMs ∧
    mapEnrollmentAnchored c9Settings c9Words 1000 = MapResult.ok "A" [] ∧
    c9Word ∈ c9Words ∧ c9Word.speaker = "A" ∧
    ¬ inEnrollment 1000 c9Word ∧ ¬ inSubject (1000 + c9Settings.padMs) c9Word ∧
    c9Word ∉ userWordsOf c9Words (1000 + c9Settings.padMs) "A" := by
  have hu : userWordsOf c9Words (1000 + c9Settings.padMs) "A" = [] := by decide
  refine ⟨by decide, ?_, List.mem_cons_of_mem _ (List.mem_singleton.mpr rfl), rfl,
    by decide, by decide, by simp [hu]⟩
  have hp : pickMaxBy (fun p : String × ℤ => p.2) (labelTimes c9Words 1000) =
      some ("A", 1000) := by decide
  rw [mapEA_some c9Settings c9Words 1000 "A" 1000 hp]
  have hpy : pyInt (c9Settings.enrollDom * ((1000 : ℤ) : ℚ)) = 800 := by
    have h45 : c9Settings.enrollDom * ((1000 : ℤ) : ℚ) = 800 := by
      norm_num [c9Settings]
    rw [pyInt, h45, if_pos (by norm_num)]
    rw [Int.floor_eq_iff]
    constructor <;> norm_num
  rw [hpy, if_neg (by omega), actualLabelOf_nomaj c9Settings rfl]
  rw [hu]
  rfl

/-- C9 (amended): the two regions are `start < enroll_ms` and
`start ≥ enroll_ms + pad_ms`; a word falls in neither exactly when its start
lies in `[enroll_ms, enroll_ms + pad_ms)` (an empty interval only when
`pad_ms ≤ 0`, e.g. the configured default `PAD_MS = 0`), and a word reaches
the builder's input for a label exactly when it is in the list, has that label
and is in the subject region. -/
theorem c9_region_partition (enroll pad : ℤ) (w : Word) (ws : List Word)
    (lab : String) :
    ((¬ inEnrollment enroll w ∧ ¬ inSubject (enroll + pad) w) ↔
      enroll ≤ w.start ∧ w.start < enroll + pad) ∧
    (w ∈ userWordsOf ws (enroll + pad) lab ↔
      w ∈ ws ∧ w.speaker = lab ∧ inSubject (enroll + pad) w) := by
  constructor
  · unfold inEnrollment inSubject
    omega
  · unfold userWordsOf inSubject
    simp [List.mem_filter, and_assoc]

/-- Witness for `c5_sorted_builder` on a concrete sorted two-word input. -/
theorem c5_sorted_builder_witness :
    (0 : ℤ) ≤ 500 ∧ (0 : ℤ) < 1000 ∧
    c5SortedWords.Pairwise (fun a b => a.start ≤ b.start) ∧
    ((keptSegments 1000 6 0 (groupWords 500 c5SortedWords)).Pairwise
        (fun s t => s.end_ms < t.start_ms) ∧
      ∀ s ∈ keptSegments 1000 6 0 (groupWords 500 c5SortedWords),
        s.start_ms < s.end_ms) :=
  ⟨by decide, by decide, by decide,
    c5_sorted_builder 500 1000 6 0 c5SortedWords (by decide) (by decide) (by decide)⟩

theorem mem_labelsIn : ∀ (ws : List Word) (lab : String),
    lab ∈ labelsIn ws ↔ ∃ w ∈ ws, w.speaker = lab
  | [], lab => by simp [labelsIn]
  | w :: ws, lab => by
    simp only [labelsIn, List.mem_cons, List.mem_filter]
    constructor
    · rintro (rfl | ⟨h1, _⟩)
      · exact ⟨w, Or.inl rfl, rfl⟩
      · obtain ⟨w', hw', he⟩ := (mem_labelsIn ws lab).mp h1
        exact ⟨w', Or.inr hw', he⟩
    · rintro ⟨w', rfl | hw'', rfl⟩
      · exact Or.inl rfl
      · by_cases he : w'.speaker = w.speaker
        · exact Or.inl he
        · refine Or.inr ⟨(mem_labelsIn ws w'.speaker).mpr ⟨w', hw'', rfl⟩, ?_⟩
          simpa using he

theorem longestSpanAux_snd : ∀ (l : List Word) (s e : ℤ) (b : ℤ × ℤ) (d : ℤ),
    (longestSpanAux s e b d l).2 =
      ((spansAux s e l).map (fun p => p.2 - p.1)).foldl max d
  | [], s, e, b, d => by
    simp only [longestSpanAux, spansAux, List.map_cons, List.map_nil,
      List.foldl_cons, List.foldl_nil]
    by_cases h : d < e - s
    · rw [if_pos h]
      exact (max_eq_right (le_of_lt h)).symm
    · rw [if_neg h]
      exact (max_eq_left (not_lt.mp h)).symm
  | w :: ws, s, e, b, d => by
    simp only [longestSpanAux, spansAux]
    by_cases h1 : w.start - e < 1000
    · rw [if_pos h1, if_pos h1]
      exact longestSpanAux_snd ws s w.end_ b d
    · rw [if_neg h1, if_neg h1]
      simp only [List.map_cons, List.foldl_cons]
      by_cases h2 : d < e - s
      · rw [if_pos h2, longestSpanAux_snd ws w.start w.end_ (s, e) (e - s),
          max_eq_right (le_of_lt h2)]
      · rw [if_neg h2, longestSpanAux_snd ws w.start w.end_ b d,
          max_eq_left (not_lt.mp h2)]

theorem spansAux_first_end : ∀ (l : List Word) (s e : ℤ),
    List.Chain (fun x y : ℤ => x ≤ y) e (l.map Word.end_) →
    ∃ E rest, spansAux s e l = (s, E) :: rest ∧ e ≤ E
  | [], s, e, _ => ⟨e, [], rfl, le_refl e⟩
  | w :: ws, s, e, hch => by
    simp only [List.map_cons] at hch
    have h1 : e ≤ w.end_ := (List.chain_cons.mp hch).1
    have h2 := (List.chain_cons.mp hch).2
    simp only [spansAux]
    by_cases hg : w.start - e < 1000
    · rw [if_pos hg]
      obtain ⟨E, rest, heq, hle⟩ := spansAux_first_end ws s w.end_ h2
      exact ⟨E, rest, heq, le_trans h1 hle⟩
    · rw [if_neg hg]
      exact ⟨e, spansAux w.start w.end_ ws, rfl, le_refl e⟩

theorem foldl_max_absorb (a b : ℤ) (l : List ℤ) (h : a ≤ b) :
    List.foldl max a (b :: l) = List.foldl max b l := by
  simp only [List.foldl_cons]
  rw [max_eq_right h]

theorem longestSpan_maxSpanDur (l : List Word)
    (hmono : List.Chain' (fun a b => a.end_ ≤ b.end_) l) (b : ℤ × ℤ) (d : ℤ)
    (h : longestSpan l = some (b, d)) : maxSpanDur l = some d := by
  cases l with
  | nil => simp [longestSpan] at h
  | cons w ws =>
    simp only [longestSpan, Option.some.injEq] at h
    have hd : d = ((spansAux w.start w.end_ ws).map (fun p => p.2 - p.1)).foldl max
        (w.end_ - w.start) := by
      rw [← longestSpanAux_snd, h]
    have hc : List.Chain (fun a b : Word => a.end_ ≤ b.end_) w ws := hmono
    have hch : List.Chain (fun x y : ℤ => x ≤ y) w.end_ (ws.map Word.end_) :=
      (List.chain_map Word.end_).mpr hc
    obtain ⟨E, rest, heq, hle⟩ := spansAux_first_end ws w.start w.end_ hch
    have hsd : spanDurations (w :: ws) =
        (E - w.start) :: rest.map (fun p => p.2 - p.1) := by
      simp only [spanDurations, spans, heq, List.map_cons]
    have hval : maxSpanDur (w :: ws) =
        some ((rest.map (fun p => p.2 - p.1)).foldl max (E - w.start)) := by
      unfold maxSpanDur
      rw [hsd]
    rw [hval, hd, heq]
    simp only [List.map_cons, Option.some.injEq]
    rw [foldl_max_absorb _ _ _ (by omega)]

/-- C4: a label appears in the dictionary built by
`extract_embeddings_per_speaker` exactly when the maximum duration of its
merged contiguous spans — merging continues precisely while the gap is
strictly below 1000 ms, and the final in-progress span counts — is at least
`min_duration_ms`; shorter-span labels are absent.  The hypothesis asks the
label's word stream to have non-decreasing end times, as diarized word
timelines do. -/
theorem c4_longest_span_rule (ws : List Word) (minDur : ℤ) (lab : String)
    (hmono : List.Chain' (fun a b => a.end_ ≤ b.end_)
      (ws.filter (fun w => w.speaker == lab))) :
    lab ∈ (extractSpansPerSpeaker ws minDur).map Prod.fst ↔
      ∃ d, maxSpanDur (ws.filter (fun w => w.speaker == lab)) = some d ∧
        minDur ≤ d := by
  constructor
  · intro hmem
    obtain ⟨p, hp, hpe⟩ := List.mem_map.mp hmem
    obtain ⟨lab', hlab', hf⟩ := List.mem_filterMap.mp hp
    cases hr : longestSpan (ws.filter (fun w => w.speaker == lab')) with
    | none =>
      rw [hr] at hf
      exact Option.noConfusion hf
    | some q =>
      obtain ⟨b, d⟩ := q
      rw [hr] at hf
      simp only [spanKeepOf] at hf
      by_cases hmind : minDur ≤ d
      · rw [if_pos hmind] at hf
        have hpl : p = (lab', b) := Option.some.inj hf.symm
        have hll : lab' = lab := by
          rw [hpl] at hpe
          exact hpe
        subst hll
        refine ⟨d, ?_, hmind⟩
        exact longestSpan_maxSpanDur _ hmono b d hr
      · rw [if_neg hmind] at hf
        exact Option.noConfusion hf
  · rintro ⟨d, hmd, hmind⟩
    have hne : ws.filter (fun w => w.speaker == lab) ≠ [] := by
      intro hnil
      rw [hnil] at hmd
      simp [maxSpanDur, spanDurations, spans] at hmd
    have hls : ∃ b dd, longestSpan (ws.filter (fun w => w.speaker == lab)) =
        some (b, dd) := by
      cases hws : ws.filter (fun w => w.speaker == lab) with
      | nil => exact absurd hws hne
      | cons w rest => exact ⟨_, _, rfl⟩
    obtain ⟨b, dd, hlseq⟩ := hls
    have hdd : dd = d := by
      have := longestSpan_maxSpanDur _ hmono b dd hlseq
      rw [hmd] at this
      exact (Option.some.inj this).symm
    subst hdd
    have hlabmem : lab ∈ labelsIn ws := by
      obtain ⟨w', hw'⟩ := List.exists_mem_of_ne_nil _ hne
      have := List.mem_filter.mp hw'
      exact (mem_labelsIn ws lab).mpr ⟨w', this.1, by simpa using this.2⟩
    refine List.mem_map.mpr ⟨(lab, b), ?_, rfl⟩
    refine List.mem_filterMap.mpr ⟨lab, hlabmem, ?_⟩
    rw [hlseq]
    simp only [spanKeepOf]
    rw [if_pos hmind]

/-- Witness for `c4_longest_span_rule` on a concrete three-word input. -/
theorem c4_longest_span_rule_witness :
    List.Chain' (fun a b => a.end_ ≤ b.end_)
      (c4Words.filter (fun w => w.speaker == "A")) ∧
    ("A" ∈ (extractSpansPerSpeaker c4Words 2000).map Prod.fst ↔
      ∃ d, maxSpanDur (c4Words.filter (fun w => w.speaker == "A")) = some d ∧
        (2000 : ℤ) ≤ d) := by
  have hch : List.Chain' (fun a b => a.end_ ≤ b.end_)
      (c4Words.filter (fun w => w.speaker == "A")) := by
    have hf : c4Words.filter (fun w => w.speaker == "A") =
        [⟨0, 2000, "A", some 1, "hello"⟩, ⟨2500, 4000, "A", some 1, "world"⟩] := rfl
    rw [hf]
    exact List.Chain.cons (by decide) List.Chain.nil
  exact ⟨hch, c4_longest_span_rule c4Words 2000 "A" hch⟩

theorem dot_cons (x y : ℝ) (a b : List ℝ) :
    dot (x :: a) (y :: b) = x * y + dot a b := by
  simp [dot]

theorem dot_self_nonneg : ∀ v : List ℝ, 0 ≤ dot v v
  | [] => le_refl 0
  | x :: t => by
    rw [dot_cons]
    have h1 := mul_self_nonneg x
    have h2 := dot_self_nonneg t
    linarith

theorem dot_self_pos : ∀ v : List ℝ, (∃ x ∈ v, x ≠ 0) → 0 < dot v v
  | [], h => by simp at h
  | x :: t, h => by
    rw [dot_cons]
    rcases h with ⟨y, hy, hyne⟩
    rcases List.mem_cons.mp hy with rfl | hy'
    · have h1 : 0 < y * y := mul_self_pos.mpr hyne
      have h2 := dot_self_nonneg t
      linarith
    · have h1 := mul_self_nonneg x
      have h2 := dot_self_pos t ⟨y, hy', hyne⟩
      linarith

theorem dot_map_div (c : ℝ) : ∀ v : List ℝ,
    dot (v.map (fun x => x / c)) (v.map (fun x => x / c)) = dot v v / (c * c)
  | [] => by simp [dot]
  | x :: t => by
    simp only [List.map_cons, dot_cons]
    rw [dot_map_div c t, div_mul_div_comm, div_add_div_same]

theorem l2norm_normalize (v : List ℝ) (h : 0 < dot v v) :
    l2norm (l2normalize v) = 1 := by
  unfold l2normalize l2norm
  rw [dot_map_div, Real.mul_self_sqrt (le_of_lt h), div_self (ne_of_gt h)]
  exact Real.sqrt_one

/-- C7: the embedding extractor reduces a temporal 2-D output by the
element-wise mean across windows followed by L2 normalization (this equation is
its definition as read off the code — not last-window, not max-pool), and
whenever the mean is a non-zero vector the returned embedding has L2 norm 1. -/
theorem c7_temporal_mean_normalize (rows : List (List ℝ))
    (h : ∃ x ∈ vecMean rows, x ≠ 0) :
    reduceTemporal rows = l2normalize (vecMean rows) ∧
    l2norm (reduceTemporal rows) = 1 := by
  refine ⟨rfl, ?_⟩
  unfold reduceTemporal
  exact l2norm_normalize _ (dot_self_pos _ h)

/-- Witness for `c7_temporal_mean_normalize` on two concrete windows. -/
theorem c7_temporal_mean_normalize_witness :
    (∃ x ∈ vecMean [[(3 : ℝ), 0], [1, 0]], x ≠ 0) ∧
    l2norm (reduceTemporal [[(3 : ℝ), 0], [1, 0]]) = 1 := by
  have h : ∃ x ∈ vecMean [[(3 : ℝ), 0], [1, 0]], x ≠ 0 := by
    have hm : vecMean [[(3 : ℝ), 0], [1, 0]] = [2, 0] := by
      norm_num [vecMean, vecSum]
    rw [hm]
    exact ⟨2, by simp, by norm_num⟩
  exact ⟨h, (c7_temporal_mean_normalize _ h).2⟩

/-- C8 (code-bug evidence): on the zero vector the code's division by its own
norm never raises — modelling the real-valued computation with total division
(`x / 0 = 0` standing in for the NaN the float code produces), the zero-input
call goes through and returns an ordinary value instead of failing with a
normalization error; no `NormalizationError` exists anywhere in the codebase. -/
theorem c8_zero_vector_value :
    cosineSimilarity [(0 : ℝ), 0] [1, 0] = 0 := by
  have hz : l2normalize [(0 : ℝ), 0] = [0, 0] := by
    unfold l2normalize l2norm
    norm_num [dot]
  unfold cosineSimilarity
  rw [hz]
  have h2 : ∀ b : List ℝ, dot [(0 : ℝ), 0] b = 0 := by
    intro b
    cases b with
    | nil => simp [dot]
    | cons y ys =>
      cases ys with
      | nil => simp [dot]
      | cons z zs => simp [dot, List.zipWith]
  exact h2 _

theorem matchStep_eq (enr : List ℝ) (b : Option String) (sc : ℝ) (lb : String)
    (e : List ℝ) :
    matchStep enr (b, sc) (lb, e) =
      if sc < cosineSimilarity enr e then (some lb, cosineSimilarity enr e)
      else (b, sc) := rfl

theorem matchFoldl_const (enr : List ℝ) : ∀ (l : List (String × List ℝ))
    (b : Option String) (sc : ℝ),
    (∀ p ∈ l, cosineSimilarity enr p.2 ≤ sc) →
    l.foldl (matchStep enr) (b, sc) = (b, sc)
  | [], _, _, _ => rfl
  | p :: l, b, sc, h => by
    obtain ⟨lb, e⟩ := p
    rw [List.foldl_cons, matchStep_eq,
      if_neg (not_lt.mpr (h (lb, e) (List.mem_cons_self _ _)))]
    exact matchFoldl_const enr l b sc (fun q hq => h q (List.mem_cons_of_mem _ hq))

theorem matchFoldl_isSome (enr : List ℝ) : ∀ (l : List (String × List ℝ))
    (b : Option String) (sc : ℝ) (s : String),
    b = some s → (l.foldl (matchStep enr) (b, sc)).1.isSome = true
  | [], b, _, s, h => by
    rw [List.foldl_nil, h]
    rfl
  | p :: l, b, sc, s, h => by
    obtain ⟨lb, e⟩ := p
    rw [List.foldl_cons, matchStep_eq]
    by_cases hc : sc < cosineSimilarity enr e
    · rw [if_pos hc]
      exact matchFoldl_isSome enr l (some lb) _ lb rfl
    · rw [if_neg hc]
      exact matchFoldl_isSome enr l b sc s h

theorem matchFoldl_none_iff (enr : List ℝ) : ∀ (l : List (String × List ℝ)) (thr : ℝ),
    (l.foldl (matchStep enr) (none, thr)).1 = none ↔
      ∀ p ∈ l, cosineSimilarity enr p.2 ≤ thr
  | [], thr => by simp
  | p :: l, thr => by
    obtain ⟨lb, e⟩ := p
    rw [List.foldl_cons, matchStep_eq]
    by_cases hc : thr < cosineSimilarity enr e
    · rw [if_pos hc]
      constructor
      · intro hres
        exfalso
        have hs := matchFoldl_isSome enr l (some lb) (cosineSimilarity enr e) lb rfl
        rw [hres] at hs
        simp at hs
      · intro hall
        exact absurd hc (not_lt.mpr (hall (lb, e) (List.mem_cons_self _ _)))
    · rw [if_neg hc, matchFoldl_none_iff enr l thr]
      constructor
      · intro hall q hq
        rcases List.mem_cons.mp hq with rfl | hq'
        · exact not_lt.mp hc
        · exact hall q hq'
      · intro hall q hq
        exact hall q (List.mem_cons_of_mem _ hq)

theorem matchFoldl_some (enr : List ℝ) : ∀ (l : List (String × List ℝ))
    (b : Option String) (sc : ℝ) (s : String),
    (l.foldl (matchStep enr) (b, sc)).1 = some s →
    (∃ e, (s, e) ∈ l ∧ sc < cosineSimilarity enr e ∧
      ∀ p ∈ l, cosineSimilarity enr p.2 ≤ cosineSimilarity enr e) ∨
    (b = some s ∧ ∀ p ∈ l, cosineSimilarity enr p.2 ≤ sc)
  | [], b, sc, s, h => Or.inr ⟨h, by simp⟩
  | p :: l, b, sc, s, h => by
    obtain ⟨lb, e0⟩ := p
    rw [List.foldl_cons, matchStep_eq] at h
    by_cases hc : sc < cosineSimilarity enr e0
    · rw [if_pos hc] at h
      rcases matchFoldl_some enr l (some lb) (cosineSimilarity enr e0) s h with
        ⟨e, he, hlt, hmax⟩ | ⟨hb, hall⟩
      · refine Or.inl ⟨e, List.mem_cons_of_mem _ he, lt_trans hc hlt, ?_⟩
        intro q hq
        rcases List.mem_cons.mp hq with rfl | hq'
        · exact le_of_lt hlt
        · exact hmax q hq'
      · have hs : lb = s := Option.some.inj hb
        subst hs
        refine Or.inl ⟨e0, List.mem_cons_self _ _, hc, ?_⟩
        intro q hq
        rcases List.mem_cons.mp hq with rfl | hq'
        · exact le_refl _
        · exact hall q hq'
    · rw [if_neg hc] at h
      rcases matchFoldl_some enr l b sc s h with ⟨e, he, hlt, hmax⟩ | ⟨hb, hall⟩
      · refine Or.inl ⟨e, List.mem_cons_of_mem _ he, hlt, ?_⟩
        intro q hq
        rcases List.mem_cons.mp hq with rfl | hq'
        · exact le_trans (not_lt.mp hc) (le_of_lt hlt)
        · exact hmax q hq'
      · refine Or.inr ⟨hb, ?_⟩
        intro q hq
        rcases List.mem_cons.mp hq with rfl | hq'
        · exact not_lt.mp hc
        · exact hall q hq'

/-- Characterization of the matching scan: its best match is `None` exactly
when no label's cosine similarity strictly exceeds the threshold, and whenever
it produces a label, that label's similarity strictly exceeds the threshold and
is maximal among all labels. -/
theorem c2_match_threshold (enr : List ℝ) (spks : List (String × List ℝ))
    (thr : ℝ) :
    (matchSpeaker enr spks thr = none ↔
      ∀ p ∈ spks, cosineSimilarity enr p.2 ≤ thr) ∧
    ∀ s, matchSpeaker enr spks thr = some s →
      ∃ e, (s, e) ∈ spks ∧ thr < cosineSimilarity enr e ∧
        ∀ p ∈ spks, cosineSimilarity enr p.2 ≤ cosineSimilarity enr e := by
  constructor
  · exact matchFoldl_none_iff enr spks thr
  · intro s h
    rcases matchFoldl_some enr spks none thr s h with ⟨e, he, hlt, hmax⟩ | ⟨hb, _⟩
    · exact ⟨e, he, hlt, hmax⟩
    · exact Option.noConfusion hb

theorem cosSim_one_one : cosineSimilarity [(1 : ℝ)] [1] = 1 := by
  unfold cosineSimilarity l2normalize l2norm
  norm_num [dot, Real.sqrt_one]

theorem cosSim_one_negOne : cosineSimilarity [(1 : ℝ)] [-1] = -1 := by
  unfold cosineSimilarity l2normalize l2norm
  norm_num [dot, Real.sqrt_one]

/-- Concrete instance of `c2_match_threshold`: a two-label dictionary where `X`
scores 1 and `Y` scores −1 against threshold 13/20; the matcher returns `X` and
the theorem yields its maximality. -/
theorem c2_match_threshold_witness :
    ∃ e, ("X", e) ∈ [("X", [(1 : ℝ)]), ("Y", [-1])] ∧
      (13 / 20 : ℝ) < cosineSimilarity [(1 : ℝ)] e ∧
      ∀ p ∈ [("X", [(1 : ℝ)]), ("Y", [-1])],
        cosineSimilarity [(1 : ℝ)] p.2 ≤ cosineSimilarity [(1 : ℝ)] e := by
  have hm : matchSpeaker [(1 : ℝ)] [("X", [(1 : ℝ)]), ("Y", [-1])] (13 / 20) =
      some "X" := by
    unfold matchSpeaker
    rw [List.foldl_cons, matchStep_eq, if_pos (by rw [cosSim_one_one]; norm_num),
      List.foldl_cons, matchStep_eq,
      if_neg (by rw [cosSim_one_one, cosSim_one_negOne]; norm_num)]
    rfl
  exact (c2_match_threshold [(1 : ℝ)] [("X", [(1 : ℝ)]), ("Y", [-1])] (13 / 20)).2
    "X" hm

/-- C2 (code-bug evidence): with an empty `speaker_embeddings` dict no label's
similarity exceeds the threshold — the claim's very condition for returning
`None` — yet `match_speaker_to_enrollment` raises a `ValueError` from the
no-match logging line (`max(similarities.values())` over the empty dict)
instead of returning `None`; the model of the full function evaluates to that
error at the failing input. -/
theorem c2_empty_dict_value_error :
    matchSpeakerChecked [(1 : ℝ)] [] (13 / 20) =
      Except.error "ValueError: max() arg is an empty sequence" ∧
    ∀ p ∈ ([] : List (String × List ℝ)),
      cosineSimilarity [(1 : ℝ)] p.2 ≤ 13 / 20 :=
  ⟨rfl, by simp⟩

theorem matchFoldl_lt (enr : List ℝ) : ∀ (l : List (String × List ℝ))
    (b : Option String) (sc M : ℝ),
    sc < M → (∀ p ∈ l, cosineSimilarity enr p.2 < M) →
    (l.foldl (matchStep enr) (b, sc)).2 < M
  | [], _, _, _, h, _ => h
  | p :: l, b, sc, M, h, hall => by
    obtain ⟨lb, e⟩ := p
    rw [List.foldl_cons, matchStep_eq]
    by_cases hc : sc < cosineSimilarity enr e
    · rw [if_pos hc]
      exact matchFoldl_lt enr l _ _ M (hall (lb, e) (List.mem_cons_self _ _))
        (fun q hq => hall q (List.mem_cons_of_mem _ hq))
    · rw [if_neg hc]
      exact matchFoldl_lt enr l b sc M h
        (fun q hq => hall q (List.mem_cons_of_mem _ hq))

/-- C10 (implicit): when the first maximal-similarity label strictly precedes a
tied label in the dictionary's insertion order and the tied score exceeds the
threshold, the matcher returns the earlier label — the scan replaces the best
match only on strict improvement, so a later equal score never displaces an
earlier one. -/
theorem c10_tie_first_wins (enr : List ℝ) (as bs : List (String × List ℝ))
    (l1 l2 : String) (e1 e2 : List ℝ) (thr : ℝ)
    (h1 : ∀ p ∈ as, cosineSimilarity enr p.2 < cosineSimilarity enr e1)
    (h2 : ∀ p ∈ bs, cosineSimilarity enr p.2 ≤ cosineSimilarity enr e1)
    (h3 : thr < cosineSimilarity enr e1)
    (h4 : (l2, e2) ∈ bs)
    (h5 : cosineSimilarity enr e2 = cosineSimilarity enr e1) :
    matchSpeaker enr (as ++ (l1, e1) :: bs) thr = some l1 := by
  unfold matchSpeaker
  obtain ⟨b1, s1, hacc⟩ : ∃ b1 s1, as.foldl (matchStep enr) (none, thr) = (b1, s1) :=
    ⟨_, _, rfl⟩
  have hlt : s1 < cosineSimilarity enr e1 := by
    have h := matchFoldl_lt enr as none thr (cosineSimilarity enr e1) h3 h1
    rw [hacc] at h
    exact h
  rw [List.foldl_append, hacc, List.foldl_cons, matchStep_eq, if_pos hlt,
    matchFoldl_const enr bs (some l1) (cosineSimilarity enr e1) h2]

/-- Witness for `c10_tie_first_wins`: labels `X` and `Y` tie at similarity 1
above threshold 13/20 with `X` first; the matcher returns `X`. -/
theorem c10_tie_first_wins_witness :
    (∀ p ∈ [("Z", [(-1 : ℝ)])],
      cosineSimilarity [(1 : ℝ)] p.2 < cosineSimilarity [(1 : ℝ)] [1]) ∧
    (∀ p ∈ [("Y", [(1 : ℝ)])],
      cosineSimilarity [(1 : ℝ)] p.2 ≤ cosineSimilarity [(1 : ℝ)] [1]) ∧
    (13 / 20 : ℝ) < cosineSimilarity [(1 : ℝ)] [1] ∧
    ("Y", [(1 : ℝ)]) ∈ [("Y", [(1 : ℝ)])] ∧
    cosineSimilarity [(1 : ℝ)] [1] = cosineSimilarity [(1 : ℝ)] [1] ∧
    matchSpeaker [(1 : ℝ)] ([("Z", [(-1 : ℝ)])] ++ ("X", [(1 : ℝ)]) :: [("Y", [(1 : ℝ)])])
      (13 / 20) = some "X" := by
  have hz : ∀ p ∈ [("Z", [(-1 : ℝ)])],
      cosineSimilarity [(1 : ℝ)] p.2 < cosineSimilarity [(1 : ℝ)] [1] := by
    intro p hp
    rcases List.mem_singleton.mp hp with rfl
    show cosineSimilarity [(1 : ℝ)] [-1] < cosineSimilarity [(1 : ℝ)] [1]
    rw [cosSim_one_one, cosSim_one_negOne]
    norm_num
  have hy : ∀ p ∈ [("Y", [(1 : ℝ)])],
      cosineSimilarity [(1 : ℝ)] p.2 ≤ cosineSimilarity [(1 : ℝ)] [1] := by
    intro p hp
    rcases List.mem_singleton.mp hp with rfl
    show cosineSimilarity [(1 : ℝ)] [1] ≤ cosineSimilarity [(1 : ℝ)] [1]
    exact le_refl _
  have hthr : (13 / 20 : ℝ) < cosineSimilarity [(1 : ℝ)] [1] := by
    rw [cosSim_one_one]
    norm_num
  exact ⟨hz, hy, hthr, List.mem_singleton.mpr rfl, rfl,
    c10_tie_first_wins [(1 : ℝ)] [("Z", [(-1 : ℝ)])] [("Y", [(1 : ℝ)])] "X" "Y"
      [(1 : ℝ)] [(1 : ℝ)] (13 / 20) hz hy hthr (List.mem_singleton.mpr rfl) rfl⟩

/-- Witness for `c3_segment_keep_rule` at a concrete single-run grouping. -/
theorem c3_segment_keep_rule_witness :
    keptSegments 1000 6 0 [[⟨0, 2000, "A", some 1, "abcdefg"⟩]] =
      ([[⟨0, 2000, "A", some 1, "abcdefg"⟩]].filter (keepSeg 1000 6 0)).map (segOf 0) ∧
    (∀ g : List Word, keepSeg 1000 6 0 g = true ↔
      ((1000 : ℤ) ≤ segEnd 0 g - segStart 0 g ∧ 6 ≤ (segText g).length)) ∧
    (∀ s ∈ keptSegments 1000 6 0 [[⟨0, 2000, "A", some 1, "abcdefg"⟩]],
      ∃ g ∈ [[(⟨0, 2000, "A", some 1, "abcdefg"⟩ : Word)]], s = segOf 0 g ∧
        s.avg_conf = (g.map (fun w => w.confidence.getD 1)).sum / (g.length : ℚ)) :=
  c3_segment_keep_rule 1000 6 0 [[⟨0, 2000, "A", some 1, "abcdefg"⟩]]

/-- Witness for `c6_no_enrollment_words` at a concrete input. -/
theorem c6_no_enrollment_words_witness :
    mapEnrollmentAnchored defaultSettings c9Words 500 =
      MapResult.indeterminate "no_enrollment_words" none ↔
      ∀ w ∈ c9Words, ¬ inEnrollment 500 w :=
  c6_no_enrollment_words defaultSettings c9Words 500

/-- Witness for `c9_region_partition` at a concrete word and pad. -/
theorem c9_region_partition_witness :
    ((¬ inEnrollment 1000 c9Word ∧ ¬ inSubject (1000 + 1) c9Word) ↔
      (1000 : ℤ) ≤ c9Word.start ∧ c9Word.start < 1000 + 1) ∧
    (c9Word ∈ userWordsOf c9Words (1000 + 1) "A" ↔
      c9Word ∈ c9Words ∧ c9Word.speaker = "A" ∧ inSubject (1000 + 1) c9Word) :=
  c9_region_partition 1000 1 c9Word c9Words "A"

end SelectiveSpeaker
